import Mathlib

/-!
Verification model of the leaderboard-redis repository.

The hot index is a Redis sorted set per leaderboard
(`internal/redis/leaderboard.go`); scores are stored as IEEE-754
double-precision floats, so the model tracks the exact integer value of
the stored double and applies round-to-nearest-even at the points where
the Go code converts `int64` scores to `float64` (and where Redis adds
doubles).  The cold store is PostgreSQL (`internal/postgres/repository.go`),
the service layer is `internal/service` and the WebSocket hub is
`internal/websocket/hub.go`.
-/

namespace Leaderboard

/-! ### IEEE-754 double model for integer scores

`float64` has a 53-bit significand.  Converting an `int64` to `float64`
(Go's `float64(score)`, and Redis parsing a score) rounds the integer to
53 significant bits with round-to-nearest, ties-to-even.  The functions
below compute the exact integer value of that double. -/

/-- Floor of log base 2, by fuel recursion (exact for `n < 2 ^ fuel`). -/
def lg2 : Nat → Nat → Nat
  | 0, _ => 0
  | fuel + 1, n => if n < 2 then 0 else lg2 fuel (n / 2) + 1

/-- Floor of log base 2 for numbers below `2 ^ 128`. -/
def floorLog2 (n : Nat) : Nat := lg2 128 n

/-- Round a natural number to 53 significant bits,
round-to-nearest, ties-to-even.  This is the exact value of the
`float64` nearest to `n` (for `n` far below the overflow threshold). -/
def roundNat53 (n : Nat) : Nat :=
  if n < 2 ^ 53 then n
  else
    let e := floorLog2 n - 52
    let q := n / 2 ^ e
    let r := n % 2 ^ e
    let half := 2 ^ (e - 1)
    let q2 := if r < half then q
      else if half < r then q + 1
      else if q % 2 = 0 then q else q + 1
    q2 * 2 ^ e

/-- Exact integer value of the `float64` nearest to the integer `x`:
the rounding applied by Go's `float64(score)` conversion and by Redis
when it parses or adds scores. -/
def f64round (x : Int) : Int := Int.sign x * roundNat53 x.natAbs

theorem roundNat53_of_lt {n : Nat} (h : n < 2 ^ 53) : roundNat53 n = n := by
  unfold roundNat53
  rw [if_pos h]

theorem roundNat53_pow53 : roundNat53 (2 ^ 53) = 2 ^ 53 := by decide

theorem roundNat53_eq_self {n : Nat} (h : n ≤ 2 ^ 53) : roundNat53 n = n := by
  rcases Nat.lt_or_ge n (2 ^ 53) with h' | h'
  · exact roundNat53_of_lt h'
  · have : n = 2 ^ 53 := Nat.le_antisymm h h'
    rw [this, roundNat53_pow53]

theorem f64round_eq_self {x : Int} (h : x.natAbs ≤ 2 ^ 53) : f64round x = x := by
  unfold f64round
  rw [roundNat53_eq_self h, Int.sign_mul_natAbs]

/-! ### Member ordering

Redis orders sorted-set members with equal scores lexicographically by
byte string; for the ASCII identifiers of this system that is the
codepoint-lexicographic order on the characters. -/

/-- Lexicographic strict order on character lists by codepoint. -/
def charsLt : List Char → List Char → Bool
  | [], [] => false
  | [], _ :: _ => true
  | _ :: _, [] => false
  | a :: as, b :: bs =>
    if a.toNat < b.toNat then true
    else if b.toNat < a.toNat then false
    else charsLt as bs

/-- Redis byte-lexicographic order on member ids. -/
def memLt (a b : String) : Bool := charsLt a.data b.data

theorem charsLt_asymm : ∀ {a b : List Char}, charsLt a b = true → charsLt b a = true → False
  | [], [], h, _ => by simp [charsLt] at h
  | [], _ :: _, _, h' => by simp [charsLt] at h'
  | _ :: _, [], h, _ => by simp [charsLt] at h
  | a :: as, b :: bs, h, h' => by
    unfold charsLt at h h'
    by_cases hab : a.toNat < b.toNat
    · have : ¬ b.toNat < a.toNat := by omega
      simp [hab, this] at h'
    · by_cases hba : b.toNat < a.toNat
      · simp [hab, hba] at h
      · simp [hab, hba] at h h'
        exact charsLt_asymm h h'

theorem charsLt_trans : ∀ {a b c : List Char},
    charsLt a b = true → charsLt b c = true → charsLt a c = true
  | [], [], _, h, _ => by simp [charsLt] at h
  | [], _ :: _, [], _, h' => by simp [charsLt] at h'
  | [], _ :: _, _ :: _, _, _ => by simp [charsLt]
  | _ :: _, [], _, h, _ => by simp [charsLt] at h
  | _ :: _, _ :: _, [], _, h' => by simp [charsLt] at h'
  | a :: as, b :: bs, c :: cs, h, h' => by
    unfold charsLt at h h' ⊢
    by_cases hab : a.toNat < b.toNat <;> by_cases hbc : b.toNat < c.toNat
    · have hac : a.toNat < c.toNat := by omega
      simp [hac]
    · have hcb : ¬ c.toNat < b.toNat := by
        intro hcb
        simp [hbc, hcb] at h'
      have hac : a.toNat < c.toNat := by omega
      simp [hac]
    · have hba : ¬ b.toNat < a.toNat := by
        intro hba
        simp [hab, hba] at h
      have hac : a.toNat < c.toNat := by omega
      simp [hac]
    · have hba : ¬ b.toNat < a.toNat := by
        intro hba
        simp [hab, hba] at h
      have hcb : ¬ c.toNat < b.toNat := by
        intro hcb
        simp [hbc, hcb] at h'
      have h1 : charsLt as bs = true := by simpa [hab, hba] using h
      have h2 : charsLt bs cs = true := by simpa [hbc, hcb] using h'
      have hac : ¬ a.toNat < c.toNat := by omega
      have hca : ¬ c.toNat < a.toNat := by omega
      simp [hac, hca]
      exact charsLt_trans h1 h2

theorem charsLt_conn : ∀ {a b : List Char},
    charsLt a b = false → charsLt b a = false → a = b
  | [], [], _, _ => rfl
  | [], _ :: _, h, _ => by simp [charsLt] at h
  | _ :: _, [], _, h' => by simp [charsLt] at h'
  | a :: as, b :: bs, h, h' => by
    unfold charsLt at h h'
    by_cases hab : a.toNat < b.toNat
    · simp [hab] at h
    · by_cases hba : b.toNat < a.toNat
      · simp [hba, hab] at h'
      · have hv : a = b := Char.ext (by
          have hn : a.toNat = b.toNat := by omega
          exact UInt32.ext hn)
        subst hv
        simp [hab] at h h'
        exact congrArg (a :: ·) (charsLt_conn h h')

theorem memLt_asymm {a b : String} (h : memLt a b = true) (h' : memLt b a = true) : False :=
  charsLt_asymm h h'

theorem memLt_trans {a b c : String} (h : memLt a b = true) (h' : memLt b c = true) :
    memLt a c = true := charsLt_trans h h'

theorem memLt_conn {a b : String} (h : memLt a b = false) (h' : memLt b a = false) : a = b := by
  have := charsLt_conn h h'
  cases a
  cases b
  simpa [String.data] using congrArg String.mk this

theorem memLt_negtrans {a b c : String} (h : memLt a b = false) (h' : memLt b c = false) :
    memLt a c = false := by
  cases hac : memLt a c with
  | false => rfl
  | true =>
    cases hba : memLt b a with
    | false =>
      have : a = b := memLt_conn h hba
      subst this
      rw [hac] at h'
      exact absurd h' (by simp)
    | true =>
      have : memLt b c = true := memLt_trans hba hac
      rw [this] at h'
      exact absurd h' (by simp)

/-! ### The Redis sorted set (one leaderboard's hot index)

A sorted set is modelled as an association list from member to the
stored score value; the value recorded is the exact integer value of
the `float64` Redis holds.  Ranking views are obtained by sorting with
score descending and, for equal scores, member descending — the exact
order `ZREVRANGE`/`ZREVRANK` use. -/

abbrev PlayerId := String

abbrev ZSet := List (PlayerId × Int)

/-- `ZSCORE`: the stored value of a member, if present. -/
def zscore : ZSet → PlayerId → Option Int
  | [], _ => none
  | e :: rest, p => if e.1 = p then some e.2 else zscore rest p

/-- `ZADD`: overwrite the member's value, inserting it if absent. -/
def zadd : ZSet → PlayerId → Int → ZSet
  | [], p, v => [(p, v)]
  | e :: rest, p, v => if e.1 = p then (p, v) :: rest else e :: zadd rest p v

/-- `ZREM`: remove a member (no error if absent). -/
def zrem (z : ZSet) (p : PlayerId) : ZSet := z.filter fun e => decide (e.1 ≠ p)

/-- `ZCARD`: number of members. -/
def zcard (z : ZSet) : Nat := z.length

/-- Well-formedness: one entry per member. -/
def keysNodup (z : ZSet) : Prop := (z.map Prod.fst).Nodup

/-- `a` sorts before-or-equal `b` in `ZREVRANGE` order: higher score
first; for equal scores, member byte-lexicographically descending. -/
def entryRevLe (a b : PlayerId × Int) : Prop :=
  b.2 < a.2 ∨ (a.2 = b.2 ∧ memLt a.1 b.1 = false)

/-- `a` sorts strictly before `b` in `ZREVRANGE` order. -/
def entryRevLt (a b : PlayerId × Int) : Prop :=
  b.2 < a.2 ∨ (a.2 = b.2 ∧ memLt b.1 a.1 = true)

instance : DecidableRel entryRevLe := fun a b => by
  unfold entryRevLe
  infer_instance

instance : DecidableRel entryRevLt := fun a b => by
  unfold entryRevLt
  infer_instance

instance : IsTotal (PlayerId × Int) entryRevLe where
  total a b := by
    unfold entryRevLe
    rcases lt_trichotomy a.2 b.2 with h | h | h
    · exact Or.inr (Or.inl h)
    · cases hm : memLt a.1 b.1 with
      | false => exact Or.inl (Or.inr ⟨h, rfl⟩)
      | true =>
        refine Or.inr (Or.inr ⟨h.symm, ?_⟩)
        cases hm' : memLt b.1 a.1 with
        | false => rfl
        | true => exact (memLt_asymm hm hm').elim
    · exact Or.inl (Or.inl h)

instance : IsTrans (PlayerId × Int) entryRevLe where
  trans a b c hab hbc := by
    unfold entryRevLe at *
    rcases hab with h1 | ⟨h1, m1⟩ <;> rcases hbc with h2 | ⟨h2, m2⟩
    · exact Or.inl (by omega)
    · exact Or.inl (by omega)
    · exact Or.inl (by omega)
    · exact Or.inr ⟨h1.trans h2, memLt_negtrans m1 m2⟩

/-- The `ZREVRANGE` view: members sorted by score descending, ties by
member descending. -/
def revSort (z : ZSet) : List (PlayerId × Int) := List.insertionSort entryRevLe z

/-- Index of the first entry with the given member. -/
def idxOfKey (p : PlayerId) : List (PlayerId × Int) → Option Nat
  | [] => none
  | e :: rest => if e.1 = p then some 0 else (idxOfKey p rest).map (· + 1)

/-- `ZREVRANK`: 0-based position of a member in the descending order. -/
def zrevrank (z : ZSet) (p : PlayerId) : Option Nat := idxOfKey p (revSort z)

/-- Resolve a Redis range index: negative indices count from the end. -/
def resolveIdx (sz : Nat) (i : Int) : Int := if i < 0 then (sz : Int) + i else i

/-- `ZREVRANGE start stop` (both inclusive, negative = from the end). -/
def zrevrange (z : ZSet) (start stop : Int) : List (PlayerId × Int) :=
  let l := revSort z
  let sz := l.length
  let a := max (resolveIdx sz start) 0
  let b := min (resolveIdx sz stop) ((sz : Int) - 1)
  if a > b then [] else (l.drop a.toNat).take (b - a + 1).toNat

/-! ### Domain types (`internal/domain`) -/

inductive SortOrder
  | desc
  | asc
deriving DecidableEq

inductive ResetPeriod
  | daily
  | weekly
  | monthly
  | never
deriving DecidableEq

inductive UpdateMode
  | replace
  | increment
  | best
deriving DecidableEq

/-- `domain.LeaderboardConfig` (timestamps omitted — wall-clock time is
not modelled). -/
structure LeaderboardConfig where
  id : String
  name : String
  sortOrder : SortOrder
  resetPeriod : ResetPeriod
  maxEntries : Int
  updateMode : UpdateMode
deriving DecidableEq

/-- `domain.LeaderboardEntry`. -/
structure LeaderboardEntry where
  rank : Int
  playerID : String
  score : Int
deriving DecidableEq

/-- `domain.ScoreSubmission` (free-form JSON metadata omitted). -/
structure ScoreSubmission where
  playerID : String
  leaderboardID : String
  score : Int
  gameID : String
deriving DecidableEq

/-- `domain.ScoreEvent` (timestamp and metadata omitted). -/
structure ScoreEvent where
  playerID : String
  leaderboardID : String
  score : Int
  gameID : String
  eventType : String
deriving DecidableEq

/-- The error values of `internal/domain/errors.go`. -/
inductive DomainError
  | playerNotFound
  | leaderboardNotFound
  | leaderboardExists
  | invalidScore
  | invalidLeaderboard
  | rateLimited
  | invalidRequest
  | internalError
deriving DecidableEq

/-! ### The hot store: one sorted set per leaderboard key -/

abbrev HotStore := List (String × ZSet)

/-- The sorted set at a leaderboard's key (a missing key reads as the
empty set, exactly as in Redis). -/
def hotGet : HotStore → String → ZSet
  | [], _ => []
  | e :: rest, lb => if e.1 = lb then e.2 else hotGet rest lb

/-- Store a leaderboard's sorted set under its key. -/
def hotSet : HotStore → String → ZSet → HotStore
  | [], lb, z => [(lb, z)]
  | e :: rest, lb, z => if e.1 = lb then (lb, z) :: rest else e :: hotSet rest lb z

/-- `DEL` of a leaderboard key. -/
def hotDel (h : HotStore) (lb : String) : HotStore := h.filter fun e => decide (e.1 ≠ lb)

namespace Redis

/-- `LeaderboardService.SetScore`: `ZADD` of the member with the int64
score converted to float64 (leaderboard.go:71-81). -/
def SetScore (z : ZSet) (p : PlayerId) (score : Int) : ZSet := zadd z p (f64round score)

/-- The `ZSCORE` read issued first by `SetScoreIfBetter`
(leaderboard.go:88). -/
def setScoreIfBetterRead (z : ZSet) (p : PlayerId) : Option Int := zscore z p

/-- The client-side compare-and-conditional-`ZADD` that
`SetScoreIfBetter` performs after its read (leaderboard.go:93-106),
as a function of the previously read value. -/
def setScoreIfBetterWrite (z : ZSet) (p : PlayerId) (score : Int) (higherIsBetter : Bool)
    (current : Option Int) : Bool × ZSet :=
  match current with
  | none => (true, SetScore z p score)
  | some cur =>
    let isBetter := (higherIsBetter && decide (cur < f64round score)) ||
      (!higherIsBetter && decide (f64round score < cur))
    if isBetter then (true, SetScore z p score) else (false, z)

/-- `LeaderboardService.SetScoreIfBetter` (leaderboard.go:84-107): a
`ZSCORE` read followed by a separate conditional `ZADD`. -/
def SetScoreIfBetter (z : ZSet) (p : PlayerId) (score : Int) (higherIsBetter : Bool) :
    Bool × ZSet :=
  setScoreIfBetterWrite z p score higherIsBetter (setScoreIfBetterRead z p)

/-- `LeaderboardService.IncrementScore`: `ZINCRBY` with `float64(delta)`
(leaderboard.go:110-117).  Redis adds doubles, so the stored result is
the rounded sum; an absent member is created with the delta. -/
def IncrementScore (z : ZSet) (p : PlayerId) (delta : Int) : Int × ZSet :=
  match zscore z p with
  | none => (f64round delta, zadd z p (f64round delta))
  | some cur =>
    let nv := f64round (cur + f64round delta)
    (nv, zadd z p nv)

/-- The rank-numbering loop shared by the range readers: the entry at
offset `i` gets rank `start + i + 1`. -/
def rankEntries (start : Int) : List (PlayerId × Int) → List LeaderboardEntry
  | [] => []
  | e :: rest => ⟨start + 1, e.1, e.2⟩ :: rankEntries (start + 1) rest

/-- `LeaderboardService.GetTopN`: `ZREVRANGE 0 (n-1)` with ranks
`i + 1` (leaderboard.go:130-146); always descending. -/
def GetTopN (z : ZSet) (n : Int) : List LeaderboardEntry :=
  rankEntries 0 (zrevrange z 0 (n - 1))

/-- `LeaderboardService.GetPlayerRank` (leaderboard.go:173-207):
pipelined `ZREVRANK` + `ZSCORE`; an absent member is
`ErrPlayerNotFound`; the 0-based rank is returned plus one. -/
def GetPlayerRank (z : ZSet) (p : PlayerId) : Except DomainError LeaderboardEntry :=
  match zrevrank z p, zscore z p with
  | some r, some v => .ok ⟨(r : Int) + 1, p, v⟩
  | _, _ => .error .playerNotFound

/-- `LeaderboardService.GetRange` (leaderboard.go:227-244): 0-indexed
inclusive `ZREVRANGE`, ranks `start + i + 1`. -/
def GetRange (z : ZSet) (start stop : Int) : List LeaderboardEntry :=
  rankEntries start (zrevrange z start stop)

/-- `LeaderboardService.GetCount`: `ZCARD`. -/
def GetCount (z : ZSet) : Int := zcard z

/-- `LeaderboardService.ResetLeaderboard` (leaderboard.go:291-298):
`DEL` of the leaderboard key. -/
def ResetLeaderboard (h : HotStore) (lb : String) : HotStore := hotDel h lb

end Redis

/-! ### The cold store (`internal/postgres/repository.go`) -/

/-- The three relations of the PostgreSQL schema (event timestamps and
JSON metadata omitted). -/
structure ColdStore where
  leaderboards : List (String × LeaderboardConfig)
  playerScores : List (String × PlayerId × Int)
  scoreEvents : List ScoreEvent
deriving DecidableEq

/-- Row lookup by primary key in `leaderboards`. -/
def lookupConfig : List (String × LeaderboardConfig) → String → Option LeaderboardConfig
  | [], _ => none
  | e :: rest, lb => if e.1 = lb then some e.2 else lookupConfig rest lb

namespace Postgres

/-- `Repository.GetLeaderboard` (repository.go:133-158): select by id;
no row is `ErrLeaderboardNotFound`. -/
def GetLeaderboard (c : ColdStore) (lb : String) : Except DomainError LeaderboardConfig :=
  match lookupConfig c.leaderboards lb with
  | some cfg => .ok cfg
  | none => .error .leaderboardNotFound

/-- `Repository.LeaderboardExists` (repository.go:444-453). -/
def LeaderboardExists (c : ColdStore) (lb : String) : Bool :=
  (lookupConfig c.leaderboards lb).isSome

/-- `Repository.RecordEvent` (repository.go:291-317): append-only
insert into `score_events`. -/
def RecordEvent (c : ColdStore) (ev : ScoreEvent) : ColdStore :=
  { c with scoreEvents := c.scoreEvents ++ [ev] }

/-- `Repository.ResetLeaderboard` (repository.go:402-410): delete all
`player_scores` rows of the leaderboard; `leaderboards` untouched. -/
def ResetLeaderboard (c : ColdStore) (lb : String) : ColdStore :=
  { c with playerScores := c.playerScores.filter fun r => decide (r.1 ≠ lb) }

/-- `Repository.GetPlayerCount` (repository.go:433-442). -/
def GetPlayerCount (c : ColdStore) (lb : String) : Nat :=
  (c.playerScores.filter fun r => decide (r.1 = lb)).length

end Postgres

/-! ### The service layer (`internal/service`) -/

/-- Combined state the service mutates. -/
structure SysState where
  cold : ColdStore
  hot : HotStore
  log : List String
deriving DecidableEq

namespace Service

/-- `config.LeaderboardConfig`: the query-limit settings. -/
structure Limits where
  defaultLimit : Int
  maxLimit : Int
deriving DecidableEq

/-- The `domain.ScoreEvent` that `SubmitScore` records. -/
def mkEvent (sub : ScoreSubmission) : ScoreEvent :=
  ⟨sub.playerID, sub.leaderboardID, sub.score, sub.gameID, "submit"⟩

/-- The `switch lbConfig.UpdateMode` of `SubmitScore`
(service.go:47-65); the Go `default` arm behaves as `replace`. -/
def dispatchUpdateMode (cfg : LeaderboardConfig) (z : ZSet) (p : PlayerId) (score : Int) :
    ZSet :=
  match cfg.updateMode with
  | .replace => Redis.SetScore z p score
  | .increment => (Redis.IncrementScore z p score).2
  | .best => (Redis.SetScoreIfBetter z p score (decide (cfg.sortOrder = SortOrder.desc))).2

/-- `LeaderboardService.SubmitScore` (service.go:39-83): load the
config from the cold store, dispatch on update mode to the hot index,
then record the event.  `eventOk` is whether the cold-store event
append succeeds; a failed append is logged and never surfaced. -/
def SubmitScore (st : SysState) (sub : ScoreSubmission) (eventOk : Bool) :
    Except DomainError SysState :=
  match Postgres.GetLeaderboard st.cold sub.leaderboardID with
  | .error e => .error e
  | .ok cfg =>
    let z2 := dispatchUpdateMode cfg (hotGet st.hot sub.leaderboardID) sub.playerID sub.score
    let st2 := { st with hot := hotSet st.hot sub.leaderboardID z2 }
    if eventOk then
      .ok { st2 with cold := Postgres.RecordEvent st2.cold (mkEvent sub) }
    else
      .ok { st2 with log := st2.log ++ ["failed to record score event"] }

/-- `LeaderboardService.SubmitScoreBatch` (service.go:86-98): apply in
order; an individual failure is logged and the batch continues.  Event
appends are taken as succeeding; they never affect scores. -/
def SubmitScoreBatch (st : SysState) : List ScoreSubmission → SysState
  | [] => st
  | sub :: rest =>
    match SubmitScore st sub true with
    | .ok st2 => SubmitScoreBatch st2 rest
    | .error _ => SubmitScoreBatch st rest

/-- The limit clamp of `LeaderboardService.GetTopN`
(service.go:101-108): non-positive becomes `DefaultLimit`, then the
result is capped at `MaxLimit`. -/
def clampTopN (limits : Limits) (n : Int) : Int :=
  let n1 := if n ≤ 0 then limits.defaultLimit else n
  if n1 > limits.maxLimit then limits.maxLimit else n1

/-- `LeaderboardService.GetTopN`: clamp, then read the hot index. -/
def GetTopN (limits : Limits) (st : SysState) (lb : String) (n : Int) : List LeaderboardEntry :=
  Redis.GetTopN (hotGet st.hot lb) (clampTopN limits n)

/-- `LeaderboardService.GetPlayerRank` (service.go:119-125). -/
def GetPlayerRank (st : SysState) (lb : String) (p : PlayerId) :
    Except DomainError LeaderboardEntry :=
  Redis.GetPlayerRank (hotGet st.hot lb) p

/-- `LeaderboardService.GetCount` (service.go:164-166). -/
def GetCount (st : SysState) (lb : String) : Int := Redis.GetCount (hotGet st.hot lb)

/-- `LeaderboardService.ResetLeaderboard` (service.go:242-263): require
the leaderboard in the cold store, then reset the hot key and the cold
`player_scores` rows. -/
def ResetLeaderboard (st : SysState) (lb : String) : Except DomainError SysState :=
  if Postgres.LeaderboardExists st.cold lb then
    .ok { st with
      hot := Redis.ResetLeaderboard st.hot lb
      cold := Postgres.ResetLeaderboard st.cold lb }
  else
    .error .leaderboardNotFound

end Service

namespace Handler

/-- The limit parsing of `Handler.GetTop` (http.go:335-340): start from
10 and overwrite only with a present, parseable, positive `limit`
query parameter (`none` models an omitted or unparseable parameter). -/
def topLimit (limitParam : Option Int) : Int :=
  match limitParam with
  | some l => if l > 0 then l else 10
  | none => 10

/-- `Handler.GetTop` (http.go:327-349): parse the limit, then call the
service. -/
def GetTop (limits : Service.Limits) (st : SysState) (lb : String) (limitParam : Option Int) :
    List LeaderboardEntry :=
  Service.GetTopN limits st lb (topLimit limitParam)

end Handler

/-! ### The WebSocket hub (`internal/websocket/hub.go`) -/

/-- A broadcast message after marshalling (payload and timestamp
abstracted away; routing looks only at the leaderboard id). -/
structure Message where
  msgType : String
  leaderboardID : String
deriving DecidableEq

/-- The hub's routing state plus each client's bounded `send` queue. -/
structure HubState where
  clients : List (String × List String)
  allClients : List String
  queues : List (String × List Message)
deriving DecidableEq

namespace Hub

/-- Capacity of a client's `send` channel (client.go:57). -/
def sendCapacity : Nat := 256

/-- The subscriber set of a leaderboard. -/
def clientsOf : List (String × List String) → String → List String
  | [], _ => []
  | e :: rest, lb => if e.1 = lb then e.2 else clientsOf rest lb

/-- A client's current outbound queue. -/
def queueOf : List (String × List Message) → String → List Message
  | [], _ => []
  | e :: rest, c => if e.1 = c then e.2 else queueOf rest c

/-- Replace a client's outbound queue. -/
def setQueue : List (String × List Message) → String → List Message → List (String × List Message)
  | [], c, q => [(c, q)]
  | e :: rest, c, q => if e.1 = c then (c, q) :: rest else e :: setQueue rest c q

/-- The non-blocking `select { case client.send <- data: default: }`:
enqueue if below capacity, otherwise leave the queue alone and report
the drop. -/
def trySend (qs : List (String × List Message)) (c : String) (m : Message) :
    List (String × List Message) × Bool :=
  if (queueOf qs c).length < sendCapacity then (setQueue qs c (queueOf qs c ++ [m]), true)
  else (qs, false)

/-- Deliver one message to each target in turn, collecting the ids of
clients whose full buffer made the hub drop the message (the
`client buffer full, skipping` warnings). -/
def sendAll (qs : List (String × List Message)) (targets : List String) (m : Message) :
    List (String × List Message) × List String :=
  match targets with
  | [] => (qs, [])
  | c :: rest =>
    let step := trySend qs c m
    let further := sendAll step.1 rest m
    (further.1, (if step.2 then [] else [c]) ++ further.2)

/-- `Hub.broadcastMessage` (hub.go:160-192): route by subscription set
when the message carries a leaderboard id, else to all clients;
per-client delivery is the non-blocking try-send.  Returns the new
state and the warned client ids. -/
def broadcastMessage (st : HubState) (m : Message) : HubState × List String :=
  let targets := if m.leaderboardID ≠ "" then clientsOf st.clients m.leaderboardID
    else st.allClients
  let sent := sendAll st.queues targets m
  ({ st with queues := sent.1 }, sent.2)

end Hub

/-- The query-limit defaults applied by `applyDefaults`
(internal/config): `default_limit = 100`, `max_limit = 1000`. -/
def defaultLimits : Service.Limits := ⟨100, 1000⟩

/-! ## Basic facts about the containers -/

theorem zscore_zadd_self (z : ZSet) (p : PlayerId) (v : Int) :
    zscore (zadd z p v) p = some v := by
  induction z with
  | nil => simp [zadd, zscore]
  | cons e rest ih =>
    by_cases h : e.1 = p
    · simp [zadd, h, zscore]
    · simp [zadd, h, zscore, ih]

theorem hotGet_hotSet_self (h : HotStore) (lb : String) (z : ZSet) :
    hotGet (hotSet h lb z) lb = z := by
  induction h with
  | nil => simp [hotSet, hotGet]
  | cons e rest ih =>
    by_cases hk : e.1 = lb
    · simp [hotSet, hk, hotGet]
    · simp [hotSet, hk, hotGet, ih]

theorem hotGet_hotDel_self (h : HotStore) (lb : String) :
    hotGet (hotDel h lb) lb = [] := by
  induction h with
  | nil => simp [hotDel, hotGet]
  | cons e rest ih =>
    by_cases hk : e.1 = lb
    · simpa [hotDel, List.filter, hk] using ih
    · simpa [hotDel, List.filter, hk, hotGet] using ih

theorem filter_ne_key_filter_eq_nil (l : List (String × PlayerId × Int)) (lb : String) :
    (l.filter fun r => decide (r.1 ≠ lb)).filter (fun r => decide (r.1 = lb)) = [] := by
  induction l with
  | nil => rfl
  | cons r rest ih =>
    by_cases hk : r.1 = lb
    · simpa [List.filter, hk] using ih
    · simpa [List.filter, hk] using ih

/-! ## Claim C10: integer scores pass through `float64` -/

/-- Claim C10 (confirmed): the hot index stores the `int64` score after
a conversion to `float64` and reads convert back, so a set followed by
a read returns the score exactly whenever its magnitude is at most
`2 ^ 53`, while there are in-range `int64` scores (for example
`2 ^ 53 + 1`) that do not survive the round trip. -/
theorem setScore_float64_roundtrip (z : ZSet) (p : PlayerId) (s : Int)
    (h : s.natAbs ≤ 2 ^ 53) :
    zscore (Redis.SetScore z p s) p = some s ∧
    ∃ t : Int, t.natAbs ≤ 2 ^ 63 - 1 ∧ zscore (Redis.SetScore z p t) p ≠ some t := by
  constructor
  · rw [Redis.SetScore, zscore_zadd_self, f64round_eq_self h]
  · refine ⟨2 ^ 53 + 1, by decide, ?_⟩
    rw [Redis.SetScore, zscore_zadd_self,
      (by decide : f64round (2 ^ 53 + 1) = 2 ^ 53)]
    intro hc
    exact absurd (Option.some.inj hc) (by decide)

/-- Instantiation of `setScore_float64_roundtrip` at score 7. -/
theorem setScore_float64_roundtrip_inst :
    (7 : Int).natAbs ≤ 2 ^ 53 ∧
    (zscore (Redis.SetScore [] "p1" 7) "p1" = some 7 ∧
      ∃ t : Int, t.natAbs ≤ 2 ^ 63 - 1 ∧ zscore (Redis.SetScore [] "p1" t) "p1" ≠ some t) :=
  ⟨by decide, setScore_float64_roundtrip [] "p1" 7 (by decide)⟩

/-! ## Claim C3: `SetScoreIfBetter` is not store-native atomic -/

/-- Claim C3 (code bug): `SetScoreIfBetter` is a client-side `ZSCORE`
read followed by a separate conditional `ZADD`, not a store-native
atomic operation, and it is not linearizable against a concurrent
`SetScore`: starting from score 10, a `SetScore` of 100 interleaved
between the read and the write of `SetScoreIfBetter(50, higher)` ends
with 50, while both sequential orders end with 100. -/
theorem setScoreIfBetter_raced_lost_update :
    zscore (Redis.setScoreIfBetterWrite (Redis.SetScore [("p1", 10)] "p1" 100) "p1" 50 true
      (Redis.setScoreIfBetterRead [("p1", 10)] "p1")).2 "p1" = some 50 ∧
    zscore (Redis.SetScoreIfBetter (Redis.SetScore [("p1", 10)] "p1" 100) "p1" 50 true).2
      "p1" = some 100 ∧
    zscore (Redis.SetScore (Redis.SetScoreIfBetter [("p1", 10)] "p1" 50 true).2 "p1" 100)
      "p1" = some 100 ∧
    (some (50 : Int)) ≠ some (100 : Int) := by decide

/-! ## Claim C8: top-N limit clamping -/

/-- Claim C8 (amended): the effective top-N limit lies in
`[1, max_limit]` whenever `max_limit ≥ 1`; a *service-level*
non-positive limit becomes `default_limit` (capped at `max_limit`),
but an omitted HTTP `limit` parameter is replaced by the handler's
constant 10, not by `default_limit`. -/
theorem topN_limit_clamp (limits : Service.Limits) (param : Option Int) (n : Int)
    (hmax : 1 ≤ limits.maxLimit) :
    (1 ≤ Service.clampTopN limits (Handler.topLimit param) ∧
      Service.clampTopN limits (Handler.topLimit param) ≤ limits.maxLimit) ∧
    Handler.topLimit none = 10 ∧
    (n ≤ 0 → Service.clampTopN limits n = min limits.defaultLimit limits.maxLimit) := by
  have h1 : 1 ≤ Handler.topLimit param := by
    cases param with
    | none => simp [Handler.topLimit]
    | some l =>
      simp only [Handler.topLimit]
      split <;> omega
  refine ⟨?_, rfl, ?_⟩
  · constructor <;> (simp only [Service.clampTopN]; split_ifs <;> omega)
  · intro hn
    simp only [Service.clampTopN]
    split_ifs <;> omega

/-- A replace-mode, descending leaderboard named `game`. -/
def gameCfg : LeaderboardConfig := ⟨"game", "Game", .desc, .never, 10000, .replace⟩

/-- Eleven players with distinct scores. -/
def elevenPlayers : ZSet :=
  [("a", 1), ("b", 2), ("c", 3), ("d", 4), ("e", 5), ("f", 6), ("g", 7), ("h", 8),
    ("i", 9), ("j", 10), ("k", 11)]

/-- A system holding `game` with eleven players in the hot index. -/
def elevenSt : SysState := ⟨⟨[("game", gameCfg)], [], []⟩, [("game", elevenPlayers)], []⟩

/-- Claim C8 counterexample: with the repository's default limits and
eleven players, a request that omits the `limit` parameter returns 10
entries — the handler's hard-coded default — not the
`default_limit = 100` the claim promises (which would return all 11). -/
theorem topN_omitted_limit_not_default :
    (Handler.GetTop defaultLimits elevenSt "game" none).length = 10 ∧
    (Service.GetTopN defaultLimits elevenSt "game" defaultLimits.defaultLimit).length = 11 ∧
    (10 : Nat) ≠ 11 := by decide

/-- Instantiation of `topN_limit_clamp` at the repository's default
limits with an omitted parameter. -/
theorem topN_limit_clamp_inst :
    1 ≤ defaultLimits.maxLimit ∧
    ((1 ≤ Service.clampTopN defaultLimits (Handler.topLimit none) ∧
      Service.clampTopN defaultLimits (Handler.topLimit none) ≤ defaultLimits.maxLimit) ∧
    Handler.topLimit none = 10 ∧
    ((0 : Int) ≤ 0 → Service.clampTopN defaultLimits 0 =
      min defaultLimits.defaultLimit defaultLimits.maxLimit)) :=
  ⟨by decide, topN_limit_clamp defaultLimits none 0 (by decide)⟩

/-! ## The `SubmitScore` success equation -/

/-- When the configuration row is present, `SubmitScore` succeeds and
produces exactly the dispatch result in the hot store; the event row
is appended when the append works and a warning is logged when it
fails. -/
theorem SubmitScore_eq (st : SysState) (sub : ScoreSubmission) (b : Bool)
    (cfg : LeaderboardConfig)
    (h : lookupConfig st.cold.leaderboards sub.leaderboardID = some cfg) :
    Service.SubmitScore st sub b = .ok (if b then
      { cold := Postgres.RecordEvent st.cold (Service.mkEvent sub)
        hot := hotSet st.hot sub.leaderboardID (Service.dispatchUpdateMode cfg
          (hotGet st.hot sub.leaderboardID) sub.playerID sub.score)
        log := st.log }
    else
      { cold := st.cold
        hot := hotSet st.hot sub.leaderboardID (Service.dispatchUpdateMode cfg
          (hotGet st.hot sub.leaderboardID) sub.playerID sub.score)
        log := st.log ++ ["failed to record score event"] }) := by
  unfold Service.SubmitScore Postgres.GetLeaderboard
  rw [h]
  cases b <;> rfl

/-! ## Claim C6: event append is best-effort -/

/-- Claim C6 (confirmed): when the leaderboard configuration loads,
`SubmitScore` succeeds even if appending the `ScoreEvent` to the cold
store fails; the failure is logged and not surfaced, the hot-index
write is exactly the one performed in the success case, and the cold
store is left untouched by the failed append. -/
theorem submitScore_event_append_best_effort (st : SysState) (sub : ScoreSubmission)
    (cfg : LeaderboardConfig)
    (h : lookupConfig st.cold.leaderboards sub.leaderboardID = some cfg) :
    Service.SubmitScore st sub false = .ok
      { cold := st.cold
        hot := hotSet st.hot sub.leaderboardID (Service.dispatchUpdateMode cfg
          (hotGet st.hot sub.leaderboardID) sub.playerID sub.score)
        log := st.log ++ ["failed to record score event"] } ∧
    Service.SubmitScore st sub true = .ok
      { cold := Postgres.RecordEvent st.cold (Service.mkEvent sub)
        hot := hotSet st.hot sub.leaderboardID (Service.dispatchUpdateMode cfg
          (hotGet st.hot sub.leaderboardID) sub.playerID sub.score)
        log := st.log } :=
  ⟨SubmitScore_eq st sub false cfg h, SubmitScore_eq st sub true cfg h⟩

/-- A best-mode, descending leaderboard named `g`. -/
def bestCfg : LeaderboardConfig := ⟨"g", "G", .desc, .never, 10000, .best⟩

/-- A system holding only the empty best-mode leaderboard `g`. -/
def bestSt : SysState := ⟨⟨[("g", bestCfg)], [], []⟩, [], []⟩

/-- Instantiation of `submitScore_event_append_best_effort` on a
submission to `g`. -/
theorem submitScore_event_append_best_effort_inst :
    lookupConfig bestSt.cold.leaderboards "g" = some bestCfg ∧
    (Service.SubmitScore bestSt ⟨"p1", "g", 5, ""⟩ false = .ok
      { cold := bestSt.cold
        hot := hotSet bestSt.hot "g" (Service.dispatchUpdateMode bestCfg
          (hotGet bestSt.hot "g") "p1" 5)
        log := bestSt.log ++ ["failed to record score event"] } ∧
    Service.SubmitScore bestSt ⟨"p1", "g", 5, ""⟩ true = .ok
      { cold := Postgres.RecordEvent bestSt.cold (Service.mkEvent ⟨"p1", "g", 5, ""⟩)
        hot := hotSet bestSt.hot "g" (Service.dispatchUpdateMode bestCfg
          (hotGet bestSt.hot "g") "p1" 5)
        log := bestSt.log }) :=
  ⟨by decide, submitScore_event_append_best_effort bestSt ⟨"p1", "g", 5, ""⟩ bestCfg (by decide)⟩

/-! ## Claim C7: reset clears both stores, keeps the configuration -/

/-- Claim C7 (confirmed): resetting a leaderboard known to the cold
store succeeds, leaves zero player-score entries in both the hot index
and the cold store, and keeps the `leaderboards` configuration rows
unchanged; resetting an unknown leaderboard fails with
`leaderboard_not_found` without producing a new state. -/
theorem resetLeaderboard_frame (st : SysState) (lb : String) :
    ((lookupConfig st.cold.leaderboards lb).isSome = true →
      Service.ResetLeaderboard st lb = .ok
        { cold := Postgres.ResetLeaderboard st.cold lb
          hot := Redis.ResetLeaderboard st.hot lb
          log := st.log } ∧
      Redis.GetCount (hotGet (Redis.ResetLeaderboard st.hot lb) lb) = 0 ∧
      Postgres.GetPlayerCount (Postgres.ResetLeaderboard st.cold lb) lb = 0 ∧
      (Postgres.ResetLeaderboard st.cold lb).leaderboards = st.cold.leaderboards) ∧
    (lookupConfig st.cold.leaderboards lb = none →
      Service.ResetLeaderboard st lb = .error DomainError.leaderboardNotFound) := by
  constructor
  · intro hex
    refine ⟨?_, ?_, ?_, rfl⟩
    · unfold Service.ResetLeaderboard Postgres.LeaderboardExists
      rw [if_pos hex]
    · rw [Redis.ResetLeaderboard, hotGet_hotDel_self]
      rfl
    · rw [Postgres.GetPlayerCount, Postgres.ResetLeaderboard]
      simp only []
      rw [filter_ne_key_filter_eq_nil]
      rfl
  · intro hnone
    unfold Service.ResetLeaderboard Postgres.LeaderboardExists
    rw [hnone]
    rfl

/-- A system holding `g` with one player in both stores. -/
def resetSt : SysState := ⟨⟨[("g", bestCfg)], [("g", "p1", 5)], []⟩, [("g", [("p1", 5)])], []⟩

/-- Instantiation of `resetLeaderboard_frame` on `g`. -/
theorem resetLeaderboard_frame_inst :
    (((lookupConfig resetSt.cold.leaderboards "g").isSome = true →
      Service.ResetLeaderboard resetSt "g" = .ok
        { cold := Postgres.ResetLeaderboard resetSt.cold "g"
          hot := Redis.ResetLeaderboard resetSt.hot "g"
          log := resetSt.log } ∧
      Redis.GetCount (hotGet (Redis.ResetLeaderboard resetSt.hot "g") "g") = 0 ∧
      Postgres.GetPlayerCount (Postgres.ResetLeaderboard resetSt.cold "g") "g" = 0 ∧
      (Postgres.ResetLeaderboard resetSt.cold "g").leaderboards =
        resetSt.cold.leaderboards) ∧
    (lookupConfig resetSt.cold.leaderboards "g" = none →
      Service.ResetLeaderboard resetSt "g" = .error DomainError.leaderboardNotFound)) ∧
    (lookupConfig resetSt.cold.leaderboards "g").isSome = true :=
  ⟨resetLeaderboard_frame resetSt "g", by decide⟩

/-! ## Claim C2: increment mode accumulates -/

/-- If a player is present with value `v` and the remaining increments
are jointly small enough to stay exact in `float64`, an increment-mode
batch adds them all up. -/
theorem batch_increment_present (cfg : LeaderboardConfig)
    (hmode : cfg.updateMode = UpdateMode.increment) :
    ∀ (l : List Int) (st : SysState) (lb : String) (p : PlayerId) (v : Int),
      lookupConfig st.cold.leaderboards lb = some cfg →
      zscore (hotGet st.hot lb) p = some v →
      v.natAbs + (l.map Int.natAbs).sum ≤ 2 ^ 53 →
      zscore (hotGet (Service.SubmitScoreBatch st (l.map fun s =>
        (⟨p, lb, s, ""⟩ : ScoreSubmission))).hot lb) p = some (v + l.sum)
  | [], st, lb, p, v, hcfg, hcur, hbound => by
    simpa [Service.SubmitScoreBatch] using hcur
  | s :: rest, st, lb, p, v, hcfg, hcur, hbound => by
    have hs : s.natAbs ≤ 2 ^ 53 := by
      simp only [List.map, List.sum_cons] at hbound
      omega
    have hvs : (v + s).natAbs ≤ 2 ^ 53 := by
      have := Int.natAbs_add_le v s
      simp only [List.map, List.sum_cons] at hbound
      omega
    have hstep := SubmitScore_eq st ⟨p, lb, s, ""⟩ true cfg hcfg
    have hdisp : Service.dispatchUpdateMode cfg (hotGet st.hot lb) p s =
        zadd (hotGet st.hot lb) p (v + s) := by
      rw [Service.dispatchUpdateMode, hmode]
      simp only [Redis.IncrementScore, hcur, f64round_eq_self hs, f64round_eq_self hvs]
    simp only [List.map]
    rw [Service.SubmitScoreBatch, hstep]
    simp only [if_true]
    rw [List.sum_cons, ← add_assoc]
    exact batch_increment_present cfg hmode rest _ lb p (v + s) hcfg
      (by
        simp only [hdisp]
        rw [hotGet_hotSet_self, zscore_zadd_self])
      (by
        simp only [List.map, List.sum_cons] at hbound
        omega)

/-- Claim C2 (amended): starting from an absent player on an
increment-mode leaderboard, submitting `s₁ … sₙ` (`n ≥ 1`) in order
stores exactly `Σ sᵢ`, provided the magnitudes sum to at most `2 ^ 53`
so that the `float64` additions stay exact. -/
theorem submitScore_increment_accumulates (st : SysState) (lb : String) (p : PlayerId)
    (cfg : LeaderboardConfig) (l : List Int)
    (hcfg : lookupConfig st.cold.leaderboards lb = some cfg)
    (hmode : cfg.updateMode = UpdateMode.increment)
    (habsent : zscore (hotGet st.hot lb) p = none)
    (hbound : (l.map Int.natAbs).sum ≤ 2 ^ 53)
    (hne : l ≠ []) :
    zscore (hotGet (Service.SubmitScoreBatch st (l.map fun s =>
      (⟨p, lb, s, ""⟩ : ScoreSubmission))).hot lb) p = some l.sum := by
  cases l with
  | nil => exact absurd rfl hne
  | cons s rest =>
    have hs : s.natAbs ≤ 2 ^ 53 := by
      simp only [List.map, List.sum_cons] at hbound
      omega
    have hstep := SubmitScore_eq st ⟨p, lb, s, ""⟩ true cfg hcfg
    have hdisp : Service.dispatchUpdateMode cfg (hotGet st.hot lb) p s =
        zadd (hotGet st.hot lb) p s := by
      rw [Service.dispatchUpdateMode, hmode]
      simp only [Redis.IncrementScore, habsent, f64round_eq_self hs]
    simp only [List.map]
    rw [Service.SubmitScoreBatch, hstep]
    simp only [if_true]
    rw [List.sum_cons]
    exact batch_increment_present cfg hmode rest _ lb p s hcfg
      (by
        simp only [hdisp]
        rw [hotGet_hotSet_self, zscore_zadd_self])
      (by
        simp only [List.map, List.sum_cons] at hbound
        omega)

/-- An increment-mode leaderboard named `g2`. -/
def incrCfg : LeaderboardConfig := ⟨"g2", "G2", .desc, .never, 10000, .increment⟩

/-- A system holding only the empty increment-mode leaderboard `g2`. -/
def incrSt : SysState := ⟨⟨[("g2", incrCfg)], [], []⟩, [], []⟩

/-- Instantiation of `submitScore_increment_accumulates`:
100 then 50 yields 150. -/
theorem submitScore_increment_accumulates_inst :
    lookupConfig incrSt.cold.leaderboards "g2" = some incrCfg ∧
    incrCfg.updateMode = UpdateMode.increment ∧
    zscore (hotGet incrSt.hot "g2") "p1" = none ∧
    (([100, 50] : List Int).map Int.natAbs).sum ≤ 2 ^ 53 ∧
    ([100, 50] : List Int) ≠ [] ∧
    zscore (hotGet (Service.SubmitScoreBatch incrSt (([100, 50] : List Int).map fun s =>
      (⟨"p1", "g2", s, ""⟩ : ScoreSubmission))).hot "g2") "p1" =
      some ([100, 50] : List Int).sum :=
  ⟨by decide, rfl, by decide, by decide, by decide,
    submitScore_increment_accumulates incrSt "g2" "p1" incrCfg [100, 50]
      (by decide) rfl (by decide) (by decide) (by decide)⟩

/-- Claim C2 counterexample: submitting the increments `2 ^ 53` and `1`
to an increment-mode leaderboard stores `2 ^ 53`, not the claimed sum
`2 ^ 53 + 1` — Redis adds the scores as `float64` doubles. -/
theorem submitScore_increment_precision_loss :
    zscore (hotGet (Service.SubmitScoreBatch incrSt
      [⟨"p1", "g2", 2 ^ 53, ""⟩, ⟨"p1", "g2", 1, ""⟩]).hot "g2") "p1" = some (2 ^ 53) ∧
    ([(2 : Int) ^ 53, 1] : List Int).sum = 2 ^ 53 + 1 ∧
    some ((2 : Int) ^ 53) ≠ some ((2 : Int) ^ 53 + 1) := by decide

/-! ## Claim C1: best mode with descending order tracks the maximum -/

theorem natAbs_max_le {v s : Int} (hv : v.natAbs ≤ 2 ^ 53) (hs : s.natAbs ≤ 2 ^ 53) :
    (max v s).natAbs ≤ 2 ^ 53 := by
  rcases le_total v s with h | h
  · rw [max_eq_right h]
    exact hs
  · rw [max_eq_left h]
    exact hv

/-- A best-mode step on a present player stores the maximum of the
current value and the submitted score (exact within `2 ^ 53`). -/
theorem setScoreIfBetter_step {z : ZSet} {p : PlayerId} {v : Int} (s : Int)
    (hcur : zscore z p = some v) (hs : s.natAbs ≤ 2 ^ 53) :
    zscore (Redis.SetScoreIfBetter z p s true).2 p = some (max v s) := by
  rw [Redis.SetScoreIfBetter, Redis.setScoreIfBetterRead, hcur, Redis.setScoreIfBetterWrite]
  by_cases hvs : v < s
  · rw [if_pos (by simp [f64round_eq_self hs, hvs])]
    simp only [Redis.SetScore, f64round_eq_self hs, zscore_zadd_self]
    rw [max_eq_right (le_of_lt hvs)]
  · rw [if_neg (by simp [f64round_eq_self hs, hvs])]
    simp only [hcur]
    rw [max_eq_left (le_of_not_lt hvs)]

/-- If a player is present with a bounded value, a best-mode descending
batch of bounded submissions leaves the running maximum. -/
theorem batch_best_present (cfg : LeaderboardConfig)
    (hmode : cfg.updateMode = UpdateMode.best) (hsort : cfg.sortOrder = SortOrder.desc) :
    ∀ (l : List Int) (st : SysState) (lb : String) (p : PlayerId) (v : Int),
      lookupConfig st.cold.leaderboards lb = some cfg →
      zscore (hotGet st.hot lb) p = some v →
      v.natAbs ≤ 2 ^ 53 →
      (∀ s ∈ l, s.natAbs ≤ 2 ^ 53) →
      zscore (hotGet (Service.SubmitScoreBatch st (l.map fun s =>
        (⟨p, lb, s, ""⟩ : ScoreSubmission))).hot lb) p = some (l.foldl max v)
  | [], st, lb, p, v, hcfg, hcur, hv, hl => by
    simpa [Service.SubmitScoreBatch] using hcur
  | s :: rest, st, lb, p, v, hcfg, hcur, hv, hl => by
    have hs : s.natAbs ≤ 2 ^ 53 := hl s (List.mem_cons_self s rest)
    have hstep := SubmitScore_eq st ⟨p, lb, s, ""⟩ true cfg hcfg
    have hdisp : Service.dispatchUpdateMode cfg (hotGet st.hot lb) p s =
        (Redis.SetScoreIfBetter (hotGet st.hot lb) p s true).2 := by
      rw [Service.dispatchUpdateMode, hmode, hsort]
      rfl
    simp only [List.map]
    rw [Service.SubmitScoreBatch, hstep]
    simp only [if_true]
    rw [List.foldl_cons]
    exact batch_best_present cfg hmode hsort rest _ lb p (max v s) hcfg
      (by
        rw [hdisp, hotGet_hotSet_self]
        exact setScoreIfBetter_step s hcur hs)
      (natAbs_max_le hv hs)
      (fun x hx => hl x (List.mem_cons_of_mem s hx))

/-- Claim C1 (amended): on a best-mode descending leaderboard, with
every score involved of magnitude at most `2 ^ 53` (so the `float64`
representation is exact), any submission batch for one player leaves
the maximum of the initial score (if any) and the submitted scores; a
submission for an absent player writes the submitted score and returns
true; a submission whose score is not strictly better returns false
and leaves the set unchanged. -/
theorem submitScore_best_desc_max (st : SysState) (lb : String) (p : PlayerId)
    (cfg : LeaderboardConfig) (l : List Int)
    (hcfg : lookupConfig st.cold.leaderboards lb = some cfg)
    (hmode : cfg.updateMode = UpdateMode.best)
    (hsort : cfg.sortOrder = SortOrder.desc)
    (hl : ∀ s ∈ l, s.natAbs ≤ 2 ^ 53)
    (hinit : ∀ v, zscore (hotGet st.hot lb) p = some v → v.natAbs ≤ 2 ^ 53) :
    (zscore (hotGet (Service.SubmitScoreBatch st (l.map fun s =>
        (⟨p, lb, s, ""⟩ : ScoreSubmission))).hot lb) p =
      match zscore (hotGet st.hot lb) p, l with
      | some v, _ => some (l.foldl max v)
      | none, [] => none
      | none, s :: rest => some (rest.foldl max s)) ∧
    (∀ s : Int, s.natAbs ≤ 2 ^ 53 → zscore (hotGet st.hot lb) p = none →
      (Redis.SetScoreIfBetter (hotGet st.hot lb) p s true).1 = true ∧
      zscore (Redis.SetScoreIfBetter (hotGet st.hot lb) p s true).2 p = some s) ∧
    (∀ s v : Int, zscore (hotGet st.hot lb) p = some v → s.natAbs ≤ 2 ^ 53 →
      v.natAbs ≤ 2 ^ 53 → s ≤ v →
      Redis.SetScoreIfBetter (hotGet st.hot lb) p s true = (false, hotGet st.hot lb)) := by
  refine ⟨?_, ?_, ?_⟩
  · cases hz : zscore (hotGet st.hot lb) p with
    | some v => exact batch_best_present cfg hmode hsort l st lb p v hcfg hz (hinit v hz) hl
    | none =>
      cases l with
      | nil => simpa [Service.SubmitScoreBatch] using hz
      | cons s rest =>
        have hs : s.natAbs ≤ 2 ^ 53 := hl s (List.mem_cons_self s rest)
        have hstep := SubmitScore_eq st ⟨p, lb, s, ""⟩ true cfg hcfg
        have hdisp : Service.dispatchUpdateMode cfg (hotGet st.hot lb) p s =
            zadd (hotGet st.hot lb) p s := by
          rw [Service.dispatchUpdateMode, hmode, hsort]
          simp only [Redis.SetScoreIfBetter, Redis.setScoreIfBetterRead, hz,
            Redis.setScoreIfBetterWrite, Redis.SetScore, f64round_eq_self hs]
        simp only [List.map]
        rw [Service.SubmitScoreBatch, hstep]
        simp only [if_true]
        exact batch_best_present cfg hmode hsort rest _ lb p s hcfg
          (by
            rw [hdisp, hotGet_hotSet_self, zscore_zadd_self])
          hs
          (fun x hx => hl x (List.mem_cons_of_mem s hx))
  · intro s hs hz
    rw [Redis.SetScoreIfBetter, Redis.setScoreIfBetterRead, hz, Redis.setScoreIfBetterWrite]
    exact ⟨rfl, by
      simp only [Redis.SetScore, f64round_eq_self hs, zscore_zadd_self]⟩
  · intro s v hz hs hv hsv
    rw [Redis.SetScoreIfBetter, Redis.setScoreIfBetterRead, hz, Redis.setScoreIfBetterWrite]
    simp only [Bool.true_and, Bool.false_and, Bool.or_false, f64round_eq_self hs]
    rw [if_neg (by simpa using not_lt.mpr hsv)]

/-- Instantiation of `submitScore_best_desc_max`: submitting 5 then 3
to the empty best-mode leaderboard leaves 5. -/
theorem submitScore_best_desc_max_inst :
    lookupConfig bestSt.cold.leaderboards "g" = some bestCfg ∧
    bestCfg.updateMode = UpdateMode.best ∧
    bestCfg.sortOrder = SortOrder.desc ∧
    (∀ s ∈ ([5, 3] : List Int), s.natAbs ≤ 2 ^ 53) ∧
    zscore (hotGet (Service.SubmitScoreBatch bestSt (([5, 3] : List Int).map fun s =>
      (⟨"p1", "g", s, ""⟩ : ScoreSubmission))).hot "g") "p1" = some 5 :=
  ⟨by decide, rfl, rfl, by decide, by
    have h := (submitScore_best_desc_max bestSt "g" "p1" bestCfg [5, 3] (by decide) rfl rfl
      (by decide) (fun v hv => by
        rw [(by decide : zscore (hotGet bestSt.hot "g") "p1" = (none : Option Int))] at hv
        exact Option.noConfusion hv)).1
    exact h.trans (by decide)⟩

/-- Claim C1 counterexample: a best-mode submission of `2 ^ 53 + 1` for
an absent player stores `2 ^ 53`, not the submitted score — the
`int64 → float64` conversion already loses the value. -/
theorem submitScore_best_large_score_lost :
    zscore (hotGet (Service.SubmitScoreBatch bestSt
      [⟨"p1", "g", 2 ^ 53 + 1, ""⟩]).hot "g") "p1" = some (2 ^ 53) ∧
    some ((2 : Int) ^ 53) ≠ some ((2 : Int) ^ 53 + 1) := by decide

/-! ## The descending view: order facts -/

deriving instance DecidableEq for Except

instance (z : ZSet) : Decidable (keysNodup z) := by
  unfold keysNodup
  infer_instance

theorem entryRevLt_irrefl (a : PlayerId × Int) : ¬ entryRevLt a a := by
  unfold entryRevLt
  rintro (h | ⟨-, h⟩)
  · exact lt_irrefl _ h
  · exact memLt_asymm h h

theorem entryRevLe_not_lt {a b : PlayerId × Int} (h : entryRevLe a b) : ¬ entryRevLt b a := by
  unfold entryRevLe entryRevLt at *
  rintro (h' | ⟨h'e, h'm⟩)
  · rcases h with h1 | ⟨h1, -⟩ <;> omega
  · rcases h with h1 | ⟨-, m1⟩
    · omega
    · rw [m1] at h'm
      exact Bool.false_ne_true h'm

theorem entryRevLe_lt_of_ne {a b : PlayerId × Int} (h : entryRevLe a b) (hne : a.1 ≠ b.1) :
    entryRevLt a b := by
  unfold entryRevLe entryRevLt at *
  rcases h with h1 | ⟨h1, m1⟩
  · exact Or.inl h1
  · refine Or.inr ⟨h1, ?_⟩
    cases hm : memLt b.1 a.1 with
    | true => rfl
    | false => exact absurd (memLt_conn m1 hm) hne

theorem sorted_revSort (z : ZSet) : List.Sorted entryRevLe (revSort z) :=
  List.sorted_insertionSort entryRevLe z

theorem perm_revSort (z : ZSet) : (revSort z).Perm z := List.perm_insertionSort entryRevLe z

theorem keysNodup_revSort {z : ZSet} (hz : keysNodup z) : keysNodup (revSort z) :=
  ((perm_revSort z).map Prod.fst).nodup_iff.mpr hz

/-- In a sorted list with distinct members, the entry at index `i` has
exactly `i` entries strictly before it in the descending order. -/
theorem sorted_get_countP : ∀ (l : List (PlayerId × Int)), List.Sorted entryRevLe l →
    (l.map Prod.fst).Nodup → ∀ (i : Nat) (e : PlayerId × Int), l.get? i = some e →
    l.countP (fun x => decide (entryRevLt x e)) = i
  | [], _, _, i, e, h => by simp at h
  | x :: t, hs, hn, 0, e, h => by
    have he : x = e := by simpa using h
    subst he
    rw [List.countP_cons]
    have h0 : ∀ a ∈ t, ¬ (decide (entryRevLt a x) = true) := by
      intro a ha
      simp only [decide_eq_true_eq]
      exact entryRevLe_not_lt ((List.sorted_cons.mp hs).1 a ha)
    rw [List.countP_eq_zero.mpr h0]
    simp [entryRevLt_irrefl x]
  | x :: t, hs, hn, i + 1, e, h => by
    have ht : t.get? i = some e := h
    have hmem : e ∈ t := List.get?_mem ht
    have hxe : entryRevLe x e := (List.sorted_cons.mp hs).1 e hmem
    have hne : x.1 ≠ e.1 := by
      intro hk
      have : x.1 ∈ t.map Prod.fst := hk ▸ List.mem_map_of_mem Prod.fst hmem
      exact (List.nodup_cons.mp hn).1 this
    rw [List.countP_cons]
    rw [sorted_get_countP t (List.sorted_cons.mp hs).2 (List.nodup_cons.mp hn).2 i e ht]
    simp [entryRevLe_lt_of_ne hxe hne]

theorem zscore_eq_of_mem : ∀ {z : ZSet}, keysNodup z → ∀ {p : PlayerId} {v : Int},
    (p, v) ∈ z → zscore z p = some v
  | [], _, p, v, hm => by simp at hm
  | e :: t, hn, p, v, hm => by
    rcases List.mem_cons.mp hm with he | ht
    · rw [← he]
      simp [zscore]
    · have hep : e.1 ≠ p := by
        intro hk
        have : e.1 ∈ t.map Prod.fst := hk ▸ List.mem_map_of_mem Prod.fst ht
        exact (List.nodup_cons.mp hn).1 this
      rw [zscore, if_neg hep]
      exact zscore_eq_of_mem (List.nodup_cons.mp hn).2 ht

theorem idxOfKey_get? : ∀ (l : List (PlayerId × Int)) (p : PlayerId) (i : Nat),
    idxOfKey p l = some i → ∃ v, l.get? i = some (p, v)
  | [], p, i, h => by simp [idxOfKey] at h
  | e :: t, p, i, h => by
    by_cases hk : e.1 = p
    · rw [idxOfKey, if_pos hk] at h
      have hi : i = 0 := (Option.some.inj h).symm
      subst hi
      exact ⟨e.2, by simp [← hk]⟩
    · rw [idxOfKey, if_neg hk] at h
      rcases Option.map_eq_some'.mp h with ⟨j, hj, hji⟩
      rcases idxOfKey_get? t p j hj with ⟨v, hv⟩
      exact ⟨v, by
        rw [← hji]
        simpa using hv⟩

theorem get?_take_some {α : Type} {l : List α} {n i : Nat} {a : α}
    (h : (l.take n).get? i = some a) : l.get? i = some a := by
  have hlen : i < (l.take n).length := by
    by_contra hbig
    rw [List.get?_eq_none.mpr (le_of_not_lt hbig)] at h
    exact Option.noConfusion h
  have hin : i < n := lt_of_lt_of_le hlen (by
    rw [List.length_take]
    exact min_le_left _ _)
  rw [← List.get?_take hin]
  exact h

theorem rankEntries_get? : ∀ (l : List (PlayerId × Int)) (start : Int) (i : Nat),
    (Redis.rankEntries start l).get? i =
      (l.get? i).map fun x => ⟨start + i + 1, x.1, x.2⟩
  | [], start, i => by simp [Redis.rankEntries]
  | x :: t, start, 0 => by simp [Redis.rankEntries]
  | x :: t, start, i + 1 => by
    have h1 : (Redis.rankEntries start (x :: t)).get? (i + 1) =
        (Redis.rankEntries (start + 1) t).get? i := rfl
    rw [h1, rankEntries_get? t (start + 1) i, List.get?_cons_succ]
    cases ht : t.get? i with
    | none => simp
    | some y =>
      simp only [Option.map_some']
      congr 2
      push_cast
      ring

theorem zrevrange_zero_get? {z : ZSet} {stop : Int} {i : Nat} {e : PlayerId × Int}
    (h : (zrevrange z 0 stop).get? i = some e) : (revSort z).get? i = some e := by
  unfold zrevrange at h
  simp only [resolveIdx, if_neg (lt_irrefl (0 : Int)), max_self, Int.toNat_zero,
    List.drop_zero, sub_zero] at h
  split_ifs at h
  all_goals first
    | exact get?_take_some h
    | exact absurd h (by simp)

/-! ## Claim C4: ranks are ordinal positions, not dense ranks -/

/-- Claim C4 (amended): the ranks returned by `GetPlayerRank` and
`GetTopN` are 1-based *ordinal* positions in the descending
`(score, member)` order: rank = 1 + the number of entries sorted
strictly before the entry, where ties on score are broken by member,
so two players with equal scores receive distinct consecutive ranks
rather than the same dense rank. -/
theorem getPlayerRank_topN_ordinal (z : ZSet) (p : PlayerId) (hz : keysNodup z) :
    (∀ e, Redis.GetPlayerRank z p = .ok e →
      e.rank = 1 + (z.countP fun x => decide (entryRevLt x (p, e.score)))) ∧
    (∀ (n : Int) (i : Nat) e, (Redis.GetTopN z n).get? i = some e →
      e.rank = (i : Int) + 1 ∧
      e.rank = 1 + (z.countP fun x => decide (entryRevLt x (e.playerID, e.score)))) := by
  constructor
  · intro e he
    unfold Redis.GetPlayerRank at he
    cases hr : zrevrank z p with
    | none => rw [hr] at he; cases hv : zscore z p <;> rw [hv] at he <;> cases he
    | some r =>
      cases hv : zscore z p with
      | none => rw [hr, hv] at he; cases he
      | some v =>
        rw [hr, hv] at he
        have he2 : e = ⟨(r : Int) + 1, p, v⟩ := (Except.ok.inj he).symm
        subst he2
        rcases idxOfKey_get? (revSort z) p r hr with ⟨v2, hv2⟩
        have hmem : (p, v2) ∈ z := (perm_revSort z).mem_iff.mp (List.get?_mem hv2)
        have hvv : v2 = v := by
          have := zscore_eq_of_mem hz hmem
          rw [hv] at this
          exact (Option.some.inj this).symm
        subst hvv
        have hcount := sorted_get_countP (revSort z) (sorted_revSort z)
          (keysNodup_revSort hz) r (p, v2) hv2
        rw [(perm_revSort z).countP_eq] at hcount
        simp only []
        rw [hcount]
        push_cast
        ring
  · intro n i e he
    unfold Redis.GetTopN at he
    rw [rankEntries_get?] at he
    cases hx : (zrevrange z 0 (n - 1)).get? i with
    | none => rw [hx] at he; cases he
    | some x =>
      rw [hx] at he
      have he2 : e = ⟨0 + (i : Int) + 1, x.1, x.2⟩ := (Option.some.inj he).symm
      subst he2
      have hget := zrevrange_zero_get? hx
      have hcount := sorted_get_countP (revSort z) (sorted_revSort z)
        (keysNodup_revSort hz) i x hget
      rw [(perm_revSort z).countP_eq] at hcount
      constructor
      · simp only []
        ring
      · simp only []
        rw [hcount]
        push_cast
        ring

/-- Instantiation of `getPlayerRank_topN_ordinal` on a two-player set
with equal scores. -/
theorem getPlayerRank_topN_ordinal_inst :
    keysNodup [("a", 5), ("b", 5)] ∧
    ((∀ e, Redis.GetPlayerRank [("a", 5), ("b", 5)] "a" = .ok e →
      e.rank = 1 + (([("a", 5), ("b", 5)] : ZSet).countP fun x =>
        decide (entryRevLt x ("a", e.score)))) ∧
    (∀ (n : Int) (i : Nat) e, (Redis.GetTopN [("a", 5), ("b", 5)] n).get? i = some e →
      e.rank = (i : Int) + 1 ∧
      e.rank = 1 + (([("a", 5), ("b", 5)] : ZSet).countP fun x =>
        decide (entryRevLt x (e.playerID, e.score))))) :=
  ⟨by decide, getPlayerRank_topN_ordinal [("a", 5), ("b", 5)] "a" (by decide)⟩

/-- Claim C4 counterexample: with two players tied at score 5, the
returned ranks are 1 and 2 — not the dense rank 1 for both — and the
rank of `a` is not `1 + (number of strictly better scores) = 1`. -/
theorem equal_scores_distinct_ranks :
    Redis.GetPlayerRank [("a", 5), ("b", 5)] "a" = .ok ⟨2, "a", 5⟩ ∧
    Redis.GetPlayerRank [("a", 5), ("b", 5)] "b" = .ok ⟨1, "b", 5⟩ ∧
    (([("a", 5), ("b", 5)] : ZSet).countP fun x => decide ((5 : Int) < x.2)) = 0 ∧
    (Redis.GetTopN [("a", 5), ("b", 5)] 2).map LeaderboardEntry.rank = [1, 2] ∧
    (2 : Int) ≠ 1 := by decide

/-! ## Claim C5: queries ignore `sort_order` and are always descending -/

/-- Overwrite the stored `sort_order` of one leaderboard's
configuration row. -/
def setSortOrder (st : SysState) (lb : String) (o : SortOrder) : SysState :=
  { st with cold := { st.cold with leaderboards := st.cold.leaderboards.map fun e =>
      if e.1 = lb then (e.1, { e.2 with sortOrder := o }) else e } }

theorem rankEntries_map_score : ∀ (l : List (PlayerId × Int)) (start : Int),
    (Redis.rankEntries start l).map LeaderboardEntry.score = l.map Prod.snd
  | [], _ => rfl
  | x :: t, start => by
    simp [Redis.rankEntries, rankEntries_map_score t (start + 1)]

theorem zrevrange_sublist (z : ZSet) (start stop : Int) :
    (zrevrange z start stop).Sublist (revSort z) := by
  unfold zrevrange
  simp only []
  split_ifs
  · exact List.nil_sublist _
  · exact ((List.take_sublist _ _).trans (List.drop_sublist _ _))

theorem sorted_scores_zrevrange (z : ZSet) (start stop : Int) :
    List.Sorted (· ≥ ·) ((zrevrange z start stop).map Prod.snd) := by
  have hsorted : List.Sorted entryRevLe (zrevrange z start stop) :=
    List.Pairwise.sublist (zrevrange_sublist z start stop) (sorted_revSort z)
  refine List.Pairwise.map Prod.snd ?_ hsorted
  intro a b hab
  unfold entryRevLe at hab
  rcases hab with h | ⟨h, -⟩ <;> omega

/-- Claim C5 (amended): ranking queries do not consult `sort_order`:
changing a leaderboard's configured order changes neither `GetTopN`
nor `GetPlayerRank`, and `GetTopN` always lists entries by descending
score with the first entry holding a maximal score — also on
leaderboards configured ascending. -/
theorem topN_always_descending (limits : Service.Limits) (st : SysState) (lb : String)
    (n : Int) (o : SortOrder) :
    Service.GetTopN limits (setSortOrder st lb o) lb n = Service.GetTopN limits st lb n ∧
    (∀ p, Service.GetPlayerRank (setSortOrder st lb o) lb p =
      Service.GetPlayerRank st lb p) ∧
    List.Sorted (· ≥ ·) ((Service.GetTopN limits st lb n).map LeaderboardEntry.score) ∧
    (∀ e, (Service.GetTopN limits st lb n).get? 0 = some e →
      ∀ x ∈ hotGet st.hot lb, x.2 ≤ e.score) := by
  refine ⟨rfl, fun p => rfl, ?_, ?_⟩
  · unfold Service.GetTopN Redis.GetTopN
    rw [rankEntries_map_score]
    exact sorted_scores_zrevrange _ 0 _
  · intro e he x hx
    unfold Service.GetTopN Redis.GetTopN at he
    rw [rankEntries_get?] at he
    cases hx0 : (zrevrange (hotGet st.hot lb) 0
        (Service.clampTopN limits n - 1)).get? 0 with
    | none => rw [hx0] at he; cases he
    | some y =>
      rw [hx0] at he
      have he2 : e = ⟨0 + (0 : Int) + 1, y.1, y.2⟩ := (Option.some.inj he).symm
      have hy : (revSort (hotGet st.hot lb)).get? 0 = some y := zrevrange_zero_get? hx0
      have hmem : x ∈ revSort (hotGet st.hot lb) :=
        (perm_revSort (hotGet st.hot lb)).mem_iff.mpr hx
      cases hrs : revSort (hotGet st.hot lb) with
      | nil => rw [hrs] at hy; cases hy
      | cons hd tl =>
        rw [hrs] at hy
        have hyhd : hd = y := by simpa using hy
        subst hyhd
        rw [hrs] at hmem
        have hsorted := sorted_revSort (hotGet st.hot lb)
        rw [hrs] at hsorted
        rcases List.mem_cons.mp hmem with hxh | hxt
        · subst hxh
          simp [he2]
        · have hle : entryRevLe hd x := (List.sorted_cons.mp hsorted).1 x hxt
          unfold entryRevLe at hle
          rw [he2]
          simp only []
          rcases hle with h | ⟨h, -⟩ <;> omega

/-- Instantiation of `topN_always_descending` at the default limits on
the eleven-player system. -/
theorem topN_always_descending_inst :
    Service.GetTopN defaultLimits (setSortOrder elevenSt "game" SortOrder.asc) "game" 5 =
      Service.GetTopN defaultLimits elevenSt "game" 5 ∧
    (∀ p, Service.GetPlayerRank (setSortOrder elevenSt "game" SortOrder.asc) "game" p =
      Service.GetPlayerRank elevenSt "game" p) ∧
    List.Sorted (· ≥ ·) ((Service.GetTopN defaultLimits elevenSt "game" 5).map
      LeaderboardEntry.score) ∧
    (∀ e, (Service.GetTopN defaultLimits elevenSt "game" 5).get? 0 = some e →
      ∀ x ∈ hotGet elevenSt.hot "game", x.2 ≤ e.score) :=
  topN_always_descending defaultLimits elevenSt "game" 5 SortOrder.asc

/-- An ascending, replace-mode leaderboard named `al`. -/
def ascCfg : LeaderboardConfig := ⟨"al", "AL", .asc, .never, 10000, .replace⟩

/-- A system holding `al` with players `a` (score 1) and `b`
(score 2). -/
def ascSt : SysState :=
  ⟨⟨[("al", ascCfg)], [], []⟩, [("al", [("a", 1), ("b", 2)])], []⟩

/-- Claim C5 counterexample: on the leaderboard configured *ascending*
the claim puts the lowest score (`a`, score 1) at rank 1 and lists
top-N from lowest upward, but the code returns `b` (score 2) first and
gives `a` rank 2. -/
theorem ascending_top_is_highest :
    lookupConfig ascSt.cold.leaderboards "al" = some ascCfg ∧
    ascCfg.sortOrder = SortOrder.asc ∧
    (Service.GetTopN defaultLimits ascSt "al" 2).map LeaderboardEntry.playerID = ["b", "a"] ∧
    (Service.GetTopN defaultLimits ascSt "al" 2).map LeaderboardEntry.score = [2, 1] ∧
    Service.GetPlayerRank ascSt "al" "a" = .ok ⟨2, "a", 1⟩ ∧
    ([2, 1] : List Int) ≠ [1, 2] ∧ (2 : Int) ≠ 1 := by decide

/-! ## Claim C9: a full subscriber queue drops the message only -/

theorem queueOf_setQueue_self (qs : List (String × List Message)) (c : String)
    (q : List Message) : Hub.queueOf (Hub.setQueue qs c q) c = q := by
  induction qs with
  | nil => simp [Hub.setQueue, Hub.queueOf]
  | cons e rest ih =>
    by_cases hk : e.1 = c
    · simp [Hub.setQueue, hk, Hub.queueOf]
    · simp [Hub.setQueue, hk, Hub.queueOf, ih]

theorem queueOf_setQueue_other (qs : List (String × List Message)) (c d : String)
    (q : List Message) (h : d ≠ c) : Hub.queueOf (Hub.setQueue qs c q) d = Hub.queueOf qs d := by
  induction qs with
  | nil => simp [Hub.setQueue, Hub.queueOf, Ne.symm h]
  | cons e rest ih =>
    by_cases hk : e.1 = c
    · simp [Hub.setQueue, hk, Hub.queueOf, Ne.symm h]
    · simp [Hub.setQueue, hk, Hub.queueOf, ih]

/-- A try-send pass never touches a full queue, and warns about every
targeted client whose queue is full. -/
theorem sendAll_full_frames (m : Message) : ∀ (targets : List String)
    (qs : List (String × List Message)) (c : String),
    Hub.sendCapacity ≤ (Hub.queueOf qs c).length →
    Hub.queueOf (Hub.sendAll qs targets m).1 c = Hub.queueOf qs c ∧
    (c ∈ targets → c ∈ (Hub.sendAll qs targets m).2)
  | [], qs, c, hfull => ⟨rfl, by simp⟩
  | d :: rest, qs, c, hfull => by
    by_cases hdc : d = c
    · subst hdc
      have hcond : ¬ (Hub.queueOf qs d).length < Hub.sendCapacity := not_lt.mpr hfull
      have hstep : Hub.trySend qs d m = (qs, false) := by
        rw [Hub.trySend, if_neg hcond]
      rw [Hub.sendAll, hstep]
      refine ⟨(sendAll_full_frames m rest qs d hfull).1, fun _ => ?_⟩
      simp only []
      exact List.mem_cons_self d _
    · rcases hcase : Hub.trySend qs d m with ⟨qs2, sent⟩
      have hq2 : Hub.queueOf qs2 c = Hub.queueOf qs c := by
        rw [Hub.trySend] at hcase
        split_ifs at hcase with hlen
        · rw [← (Prod.mk.injEq _ _ _ _).mp hcase |>.1]
          exact queueOf_setQueue_other qs d c _ (fun hc => hdc hc.symm)
        · rw [← (Prod.mk.injEq _ _ _ _).mp hcase |>.1]
      have hfull2 : Hub.sendCapacity ≤ (Hub.queueOf qs2 c).length := by
        rw [hq2]
        exact hfull
      have ih := sendAll_full_frames m rest qs2 c hfull2
      rw [Hub.sendAll, hcase]
      refine ⟨by rw [ih.1, hq2], fun hmem => ?_⟩
      have hrest : c ∈ rest := by
        rcases List.mem_cons.mp hmem with h | h
        · exact absurd h.symm hdc
        · exact h
      simp only []
      exact List.mem_append_right _ (ih.2 hrest)

/-- Claim C9 (confirmed): a broadcast step never alters the routing
tables — every subscriber stays registered with all its subscriptions —
and a targeted subscriber whose outbound queue is full keeps its queue
unchanged (the message is dropped) and is named in a warning. -/
theorem broadcast_full_queue_drops_only (st : HubState) (m : Message) (c : String)
    (hfull : Hub.sendCapacity ≤ (Hub.queueOf st.queues c).length) :
    (Hub.broadcastMessage st m).1.clients = st.clients ∧
    (Hub.broadcastMessage st m).1.allClients = st.allClients ∧
    Hub.queueOf (Hub.broadcastMessage st m).1.queues c = Hub.queueOf st.queues c ∧
    (m.leaderboardID ≠ "" → c ∈ Hub.clientsOf st.clients m.leaderboardID →
      c ∈ (Hub.broadcastMessage st m).2) ∧
    (m.leaderboardID = "" → c ∈ st.allClients → c ∈ (Hub.broadcastMessage st m).2) := by
  refine ⟨rfl, rfl, ?_, ?_, ?_⟩
  · exact (sendAll_full_frames m _ st.queues c hfull).1
  · intro hne hmem
    unfold Hub.broadcastMessage
    simp only [if_pos hne]
    exact (sendAll_full_frames m _ st.queues c hfull).2 hmem
  · intro heq hmem
    unfold Hub.broadcastMessage
    rw [if_neg (by simp [heq])]
    exact (sendAll_full_frames m _ st.queues c hfull).2 hmem

/-- A leaderboard-update message for `g`. -/
def updateMsg : Message := ⟨"leaderboard_update", "g"⟩

/-- A hub with one subscriber of `g` whose queue is full. -/
def fullHub : HubState :=
  ⟨[("g", ["c1"])], ["c1"], [("c1", List.replicate Hub.sendCapacity updateMsg)]⟩

/-- Instantiation of `broadcast_full_queue_drops_only` on a saturated
subscriber. -/
theorem broadcast_full_queue_drops_only_inst :
    Hub.sendCapacity ≤ (Hub.queueOf fullHub.queues "c1").length ∧
    ((Hub.broadcastMessage fullHub updateMsg).1.clients = fullHub.clients ∧
    (Hub.broadcastMessage fullHub updateMsg).1.allClients = fullHub.allClients ∧
    Hub.queueOf (Hub.broadcastMessage fullHub updateMsg).1.queues "c1" =
      Hub.queueOf fullHub.queues "c1" ∧
    (updateMsg.leaderboardID ≠ "" → "c1" ∈ Hub.clientsOf fullHub.clients
      updateMsg.leaderboardID → "c1" ∈ (Hub.broadcastMessage fullHub updateMsg).2) ∧
    (updateMsg.leaderboardID = "" → "c1" ∈ fullHub.allClients →
      "c1" ∈ (Hub.broadcastMessage fullHub updateMsg).2)) :=
  ⟨by simp [fullHub, Hub.queueOf],
    broadcast_full_queue_drops_only fullHub updateMsg "c1" (by simp [fullHub, Hub.queueOf])⟩

end Leaderboard
